import Mathlib

/-!
Verification of the pairwise rank-aggregation engine of the
MultiAgentComparativeAssessment repository.

Shallow embedding conventions:
* Python floats are modelled as exact rationals (`ℚ`); numpy arrays as
  Mathlib matrices over `ℚ` indexed by `Fin`.
* `np.linalg.solve` raises `LinAlgError` on a singular matrix; we model it
  as an `Option`-valued solve that is `none` exactly when the determinant
  vanishes.
* `np.linalg.inv` with a `np.linalg.pinv` fallback (`try/except`) is
  modelled by the total rational inverse `matInv`; lemmas below show the
  matrices this code inverts are nonsingular, so the fallback branch is
  unreachable and `matInv` agrees with the true inverse on every reachable
  input.
* Python `set`s of index pairs are modelled as duplicate-free lists built
  with `insertPair`.
-/

namespace MACA

/-- Result of one directed comparison, from `Domain/round_analysis.py`:
`scoreA` is attributed to the first member, `scoreB` to the second, and
`gap = scoreA - scoreB` (the cells are built that way in
`_build_match_table_and_bias`). -/
structure CellScore where
  scoreA : ℚ
  scoreB : ℚ
  gap : ℚ
deriving DecidableEq

/-- Sparse N×N directed match table: cell `(i, j)` is `none` when that
directed comparison was not run. -/
def MatchTable (N : ℕ) := Fin N → Fin N → Option CellScore

/-- Full directed matrix from `Pipeline/make_pairs.py` (`ensure_pairs`,
branch `do_full`): `[(i, j) for i in range(n) for j in range(n) if i != j]`. -/
def fullMatrixPairs (n : ℕ) : List (ℕ × ℕ) :=
  (List.range n).flatMap fun i =>
    ((List.range n).filter fun j => i != j).map fun j => (i, j)

/-- All ordered index pairs `(i, j)` with `i, j < n`, in the iteration order
of the nested `for` loops of `next_pair_greedy`. -/
def allIndexPairs (n : ℕ) : List (ℕ × ℕ) :=
  (List.range n).flatMap fun i => (List.range n).map fun j => (i, j)

/-- Total accessor for a square rational matrix addressed with plain natural
indices, as numpy code does; out-of-range access cannot happen for the
index ranges the code iterates over. -/
def matrixEntry {n : ℕ} (M : Matrix (Fin n) (Fin n) ℚ) (i j : ℕ) : ℚ :=
  if h : i < n ∧ j < n then M ⟨i, h.1⟩ ⟨j, h.2⟩ else 0

/-- Computable inverse of a rational square matrix.  Over `ℚ`,
`Matrix.inv` equals `A.det⁻¹ • A.adjugate` definitionally up to
`Ring.inverse = Inv.inv`; `matInv_eq_inv` below records the equality. -/
def matInv {n : ℕ} (A : Matrix (Fin n) (Fin n) ℚ) : Matrix (Fin n) (Fin n) ℚ :=
  A.det⁻¹ • A.adjugate

/-- Anchored design matrix `W_tilde` of `selection.build_A_inv`
(`Pipeline/selection.py`): row 0 is `np.eye(1, n, 0)` (the anchor on
`s[0]`), and row `k+1` is built from `chosen[k] = (i, j)` by
`W[k, i] = 1.0` followed by `W[k, j] = -1.0` (so on a degenerate pair with
`i = j` the later assignment would win, as in numpy). -/
def designW (n : ℕ) (chosen : List (ℕ × ℕ)) :
    Matrix (Fin (chosen.length + 1)) (Fin n) ℚ :=
  Matrix.of fun k c =>
    if (k : ℕ) = 0 then (if (c : ℕ) = 0 then 1 else 0)
    else
      let ij := chosen.getD ((k : ℕ) - 1) (0, 0)
      if (c : ℕ) = ij.2 then -1 else if (c : ℕ) = ij.1 then 1 else 0

/-- Ridge step shared by `selection.build_A_inv` and
`round_analysis._lse_scores_from_table`: `A = X^T X`, then
`if ridge and ridge > 0: A = A + ridge * np.eye(n)`.  (Python truthiness of
a float plus the `> 0` test is exactly `0 < ridge`.) -/
def ridgeGram {m n : ℕ} (X : Matrix (Fin m) (Fin n) ℚ) (ridge : ℚ) :
    Matrix (Fin n) (Fin n) ℚ :=
  let A := X.transpose * X
  if 0 < ridge then A + ridge • (1 : Matrix (Fin n) (Fin n) ℚ) else A

/-- Embeds `selection.build_A_inv`: anchored Gram matrix with default ridge
`1e-6`, inverted (`np.linalg.inv`, with a `np.linalg.pinv` fallback that is
unreachable because the ridge makes the matrix positive definite — see
`ridgeGram_det_ne_zero`). -/
def build_A_inv (n : ℕ) (chosen : List (ℕ × ℕ)) (ridge : ℚ := 1 / 1000000) :
    Matrix (Fin n) (Fin n) ℚ :=
  matInv (ridgeGram (designW n chosen) ridge)

/-- The candidate value `val = A_inv[i,i] + A_inv[j,j] - 2.0*A_inv[i,j]`
computed in the loop of `selection.next_pair_greedy`. -/
def greedyVal {n : ℕ} (A_inv : Matrix (Fin n) (Fin n) ℚ) (p : ℕ × ℕ) : ℚ :=
  matrixEntry A_inv p.1 p.1 + matrixEntry A_inv p.2 p.2 -
    2 * matrixEntry A_inv p.1 p.2

/-- Loop body of `selection.next_pair_greedy`: skip `i == j` and
already-chosen pairs, otherwise update `(best, best_val)` when
`val > best_val`. -/
def greedyStep {n : ℕ} (chosen : List (ℕ × ℕ))
    (A_inv : Matrix (Fin n) (Fin n) ℚ)
    (st : Option (ℕ × ℕ) × ℚ) (p : ℕ × ℕ) : Option (ℕ × ℕ) × ℚ :=
  if p.1 = p.2 ∨ p ∈ chosen then st
  else if st.2 < greedyVal A_inv p then (some p, greedyVal A_inv p) else st

/-- Embeds `selection.next_pair_greedy`: scan all `(i, j)` and keep the pair
maximizing `A_inv[i,i] + A_inv[j,j] - 2*A_inv[i,j]`, starting from
`best = None`, `best_val = -1e18`. -/
def next_pair_greedy (n : ℕ) (chosen : List (ℕ × ℕ)) : Option (ℕ × ℕ) :=
  (allIndexPairs n |>.foldl (greedyStep chosen (build_A_inv n chosen))
    ((none : Option (ℕ × ℕ)), -(10 ^ 18 : ℚ))).1

/-- Model of `set.add` on the chosen-pairs set: duplicate-free list
insertion. -/
def insertPair (p : ℕ × ℕ) (l : List (ℕ × ℕ)) : List (ℕ × ℕ) :=
  if p ∈ l then l else l ++ [p]

/-- Star-seeding loop of `ensure_pairs` (`Pipeline/make_pairs.py`):
`for i in range(1, n): if len(picked) >= K: break; picked.add((i, 0))`. -/
def star_loop (K : ℕ) : List ℕ → List (ℕ × ℕ) → List (ℕ × ℕ)
  | [], picked => picked
  | i :: rest, picked =>
      if K ≤ picked.length then picked
      else star_loop K rest (insertPair (i, 0) picked)

/-- The picked set after the star-seeding phase of `ensure_pairs`. -/
def star_seed (n K : ℕ) : List (ℕ × ℕ) :=
  star_loop K (List.range' 1 (n - 1)) []

/-- Greedy fill loop of `ensure_pairs`:
`while len(picked) < K: ij = next_pair_greedy(n, picked); if ij is None:
break; picked.add(ij)`.  The loop adds one fresh pair per iteration, so a
fuel of `K` iterations is enough to reach the `len(picked) < K` exit. -/
def greedy_loop (n K : ℕ) : ℕ → List (ℕ × ℕ) → List (ℕ × ℕ)
  | 0, picked => picked
  | fuel + 1, picked =>
      if picked.length < K then
        match next_pair_greedy n picked with
        | none => picked
        | some ij => greedy_loop n K fuel (insertPair ij picked)
      else picked

/-- Pair-list construction of `ensure_pairs` (`Pipeline/make_pairs.py`):
full directed matrix when `K` is `None` or `K >= n*(n-1)`, otherwise star
seeding followed by greedy filling. -/
def ensure_pairs_chosen (n : ℕ) (K : Option ℕ) : List (ℕ × ℕ) :=
  match K with
  | none => fullMatrixPairs n
  | some k =>
      if n * (n - 1) ≤ k then fullMatrixPairs n
      else greedy_loop n k k (star_seed n k)

/-! Aggregators from `Pipeline/round_analysis.py` and `Pipeline/poe.py`. -/

/-- The gap stored in an optional cell, with `0` for an absent cell.  Used
to state what the accumulation loops compute. -/
def cellGap : Option CellScore → ℚ
  | none => 0
  | some c => c.gap

/-- Observation list `(i, j, gap)` collected by the nested
`for i / for j` loops of `_lse_scores_from_table` (skip `i == j`, skip
empty cells), in row-major order. -/
def tableObs {N : ℕ} (table : MatchTable N) : List (Fin N × Fin N × ℚ) :=
  (List.finRange N).flatMap fun i =>
    (List.finRange N).filterMap fun j =>
      if i = j then none
      else (table i j).map fun cell => (i, j, cell.gap)

/-- Comparison list `(i, j, p_ij)` collected by `_poe_scores_from_table`,
with `p_ij = 1.0 / (1.0 + math.exp(cell.scoreB - cell.scoreA))`.  The
transcendental `math.exp` is not rational-valued, so it is passed in as an
explicit function parameter `pexp`; none of the verified properties depend
on which function it is. -/
def tableComps {N : ℕ} (pexp : ℚ → ℚ) (table : MatchTable N) :
    List (Fin N × Fin N × ℚ) :=
  (List.finRange N).flatMap fun i =>
    (List.finRange N).filterMap fun j =>
      if i = j then none
      else (table i j).map fun cell =>
        (i, j, 1 / (1 + pexp (cell.scoreB - cell.scoreA)))

/-- Anchored design matrix shared by `_lse_scores_from_table`
(`X = [e0^T; W]`, `X[0,0] = 1`) and `poe_gaussian_scores`
(`W_tilde = vstack([eye(1, n, 0), W])`): row 0 anchors candidate 0, row
`k+1` encodes observation `k` as `e_i - e_j` (assignment order `X[k,i]=1`
then `X[k,j]=-1`, so `j` wins if the two collide). -/
def anchoredX (N : ℕ) (obs : List (Fin N × Fin N × ℚ)) :
    Matrix (Fin (obs.length + 1)) (Fin N) ℚ :=
  Matrix.of fun k c =>
    if h : (k : ℕ) = 0 then (if (c : ℕ) = 0 then 1 else 0)
    else
      (fun o => if c = o.2.1 then (-1 : ℚ) else if c = o.1 then 1 else 0)
        (obs.get ⟨(k : ℕ) - 1, by have := k.isLt; omega⟩)

/-- Right-hand side `y = [0; gaps]` of `_lse_scores_from_table`. -/
def lseY (N : ℕ) (obs : List (Fin N × Fin N × ℚ)) :
    Fin (obs.length + 1) → ℚ :=
  fun k =>
    if h : (k : ℕ) = 0 then 0
    else (obs.get ⟨(k : ℕ) - 1, by have := k.isLt; omega⟩).2.2

/-- Core of `_lse_scores_from_table` given the collected observations:
zero vector on no observations, otherwise solve the anchored ridge system
`A = X^T X + ridge*I`, `s_hat = A_inv (X^T y)`.  `np.linalg.inv` with its
`np.linalg.pinv` fallback is modelled by `matInv`: the ridge makes `A`
positive definite (`ridgeGram_det_ne_zero`), so the fallback is dead code
and `matInv` is the exact inverse. -/
def lse_solve (N : ℕ) (obs : List (Fin N × Fin N × ℚ)) (ridge : ℚ) :
    Fin N → ℚ :=
  if obs.isEmpty then (fun _ => 0)
  else
    (matInv (ridgeGram (anchoredX N obs) ridge)).mulVec
      ((anchoredX N obs).transpose.mulVec (lseY N obs))

/-- Embeds `_lse_scores_from_table` (`Pipeline/round_analysis.py`), default ridge
`1e-9`. -/
def lse_scores_from_table {N : ℕ} (table : MatchTable N)
    (ridge : ℚ := 1 / 1000000000) : Fin N → ℚ :=
  lse_solve N (tableObs table) ridge

/-- Model of `np.mean` on a list of rationals (always finite over `ℚ`, so the
`np.isfinite` guard of `poe_gaussian_scores` never falls back to `0.5`). -/
def listMean (l : List ℚ) : ℚ := l.sum / l.length

/-- De-biasing constant `beta = E[p_ij]` of `poe_gaussian_scores`. -/
def poeBeta {N : ℕ} (comps : List (Fin N × Fin N × ℚ)) : ℚ :=
  listMean (comps.map fun o => o.2.2)

/-- Mean vector `mu_tilde = [0; p_ij - beta]` of `poe_gaussian_scores`. -/
def poeMu {N : ℕ} (comps : List (Fin N × Fin N × ℚ)) (beta : ℚ) :
    Fin (comps.length + 1) → ℚ :=
  fun k =>
    if h : (k : ℕ) = 0 then 0
    else (comps.get ⟨(k : ℕ) - 1, by have := k.isLt; omega⟩).2.2 - beta

/-- Gram matrix `A = W_tilde^T W_tilde` of `poe_gaussian_scores` — note:
no ridge term here, unlike the LSE and selection paths. -/
def poeA (N : ℕ) (comps : List (Fin N × Fin N × ℚ)) :
    Matrix (Fin N) (Fin N) ℚ :=
  (anchoredX N comps).transpose * anchoredX N comps

/-- Right-hand side `b = W_tilde^T mu_tilde` of `poe_gaussian_scores`. -/
def poeB (N : ℕ) (comps : List (Fin N × Fin N × ℚ)) : Fin N → ℚ :=
  (anchoredX N comps).transpose.mulVec (poeMu comps (poeBeta comps))

/-- Embeds `poe_gaussian_scores` (`Pipeline/poe.py`): zero vector on no
comparisons, otherwise the exact solve `np.linalg.solve(A, b)`, modelled
as `none` (a raised `LinAlgError`) exactly when `A` is singular. -/
def poe_gaussian_scores (N : ℕ) (comps : List (Fin N × Fin N × ℚ)) :
    Option (Fin N → ℚ) :=
  if comps.isEmpty then some (fun _ => 0)
  else if (poeA N comps).det = 0 then none
  else some ((matInv (poeA N comps)).mulVec (poeB N comps))

/-- Embeds `_poe_scores_from_table` (`Pipeline/round_analysis.py`): collect the
logistic comparisons, return zeros when there are none, otherwise call
`poe_gaussian_scores`. -/
def poe_scores_from_table {N : ℕ} (pexp : ℚ → ℚ) (table : MatchTable N) :
    Option (Fin N → ℚ) :=
  if (tableComps pexp table).isEmpty then some (fun _ => 0)
  else poe_gaussian_scores N (tableComps pexp table)

/-- Loop body of `position_sums_from_table` (`Pipeline/round_analysis.py`):
skip the diagonal and empty cells, add the gap to the row candidate's
`sum_as_A`, subtract it from the column candidate's `sum_as_B`.
Candidates are keyed by name in the source; names are unique within a
round (data-model invariant), so we key by index. -/
def positionStep {N : ℕ} (table : MatchTable N)
    (st : (Fin N → ℚ) × (Fin N → ℚ)) (ij : Fin N × Fin N) :
    (Fin N → ℚ) × (Fin N → ℚ) :=
  if ij.1 = ij.2 then st
  else
    match table ij.1 ij.2 with
    | none => st
    | some cell =>
        (Function.update st.1 ij.1 (st.1 ij.1 + cell.gap),
         Function.update st.2 ij.2 (st.2 ij.2 - cell.gap))

/-- The row-major list of all `(i, j)` cells visited by the nested loops
of `position_sums_from_table`. -/
def tableIndexPairs (N : ℕ) : List (Fin N × Fin N) :=
  (List.finRange N).flatMap fun i => (List.finRange N).map fun j => (i, j)

/-- Embeds `position_sums_from_table` (SumAggregator): the per-candidate
`sum_all = sum_as_A + sum_as_B` (the `counts` the source also returns are
not used downstream and are omitted). -/
def position_sums_from_table {N : ℕ} (table : MatchTable N) : Fin N → ℚ :=
  fun x =>
    ((tableIndexPairs N).foldl (positionStep table)
      ((fun _ => 0), (fun _ => 0))).1 x +
    ((tableIndexPairs N).foldl (positionStep table)
      ((fun _ => 0), (fun _ => 0))).2 x

/-- The table with a constant added to both `scoreA` and `scoreB` of every
filled cell (the `gap` field of a pipeline-built cell is `scoreA - scoreB`,
so it is rebuilt accordingly). -/
def shiftTable {N : ℕ} (c : ℚ) (table : MatchTable N) : MatchTable N :=
  fun i j =>
    (table i j).map fun cell =>
      ⟨cell.scoreA + c, cell.scoreB + c, (cell.scoreA + c) - (cell.scoreB + c)⟩

/-- A concrete 3-candidate table whose only filled cell is `(1, 2)`: the
comparison graph `{1 → 2}` is disconnected from the anchor candidate 0. -/
def disconnectedTable : MatchTable 3 :=
  fun i j => if i = 1 ∧ j = 2 then some ⟨1, 1, 0⟩ else none

/-! Rank evaluator (`_spearman_rho_with_p` / `_rank_result_from_scores`,
`Pipeline/round_analysis.py`). -/

/-- Dictionary lookup (`d[k]` / `d.get(k)`) on an association list. -/
def alookup {α : Type} (l : List (String × α)) (s : String) : Option α :=
  (l.find? fun q => q.1 = s).map Prod.snd

/-- Model of `sorted(set(gt.keys()) & set(model_scores.keys()))`: the sorted
duplicate-free intersection of the two key sets.  Python's Timsort is
modelled by an insertion sort — extensionally equal on a duplicate-free
list of strings. -/
def commonNames (gt : List (String × ℤ)) (ms : List (String × ℚ)) :
    List String :=
  List.insertionSort (· ≤ ·)
    (((gt.map Prod.fst).filter fun s => s ∈ ms.map Prod.fst).dedup)

/-- Model of `pandas.rank(method="average")` on the negated scores (so descending:
the highest score gets the smallest rank).  Modelled from the library's
contract: the average rank of value `v` is the number of strictly greater
values plus the average of the positions its tie-group occupies. -/
def avgRankDesc (scores : List ℚ) (v : ℚ) : ℚ :=
  (scores.countP fun u => decide (v < u)) +
    ((scores.countP fun u => decide (u = v)) + 1) / 2

/-- Result triple of `_spearman_rho_with_p`: the float NaN returned on the
degenerate path is modelled as `none`; `breakdown` holds the rows
`(name, gt_rank, model_score, llm_rank)` of the DataFrame. -/
structure SpearmanOut where
  rho : Option ℚ
  p : Option ℚ
  breakdown : List (String × ℤ × ℚ × ℚ)
deriving DecidableEq

/-- Embeds `_spearman_rho_with_p`: fewer than 3 common candidates yields
`(nan, nan, empty frame)`; otherwise build the frame, average-rank the
scores descending, and hand the two rank vectors to `scipy.stats.spearmanr`.
The scipy routine is an external collaborator, passed in as the function
parameter `spearmanr` (returning possibly-NaN `rho` and `p`). -/
def spearman_rho_with_p
    (spearmanr : List ℚ → List ℚ → Option ℚ × Option ℚ)
    (gt : List (String × ℤ)) (ms : List (String × ℚ)) : SpearmanOut :=
  if (commonNames gt ms).length < 3 then ⟨none, none, []⟩
  else
    let df := (commonNames gt ms).map fun nm =>
      (nm, (alookup gt nm).getD 0, (alookup ms nm).getD 0)
    let scores := df.map fun r => r.2.2
    let rows := df.map fun r => (r.1, r.2.1, r.2.2, avgRankDesc scores r.2.2)
    let rp := spearmanr (rows.map fun r => ((r.2.1 : ℚ)))
      (rows.map fun r => r.2.2.2)
    ⟨rp.1, rp.2, rows⟩

/-- Per-candidate entry of a `RankCorrelationResult`
(`Domain/round_analysis.py`): `gt_score` is `gt_scores.get(name, np.nan)`,
so it is an `Option`. -/
structure CandidateRankResult where
  gt_rank : ℤ
  gt_score : Option ℚ
  llm_rank : ℤ
  model_score : ℚ
deriving DecidableEq

/-- Embeds `RankCorrelationResult` (`Domain/round_analysis.py`). -/
structure RankCorrelationResult where
  spearman_rho : Option ℚ
  p_value : Option ℚ
  rank_list : List (String × CandidateRankResult)
deriving DecidableEq

/-- Python's `round` (banker's rounding: round half to even), used by
`int(round(...))` in `_rank_result_from_scores`. -/
def roundHalfEven (q : ℚ) : ℤ :=
  let f := ⌊q⌋
  let r := q - f
  if r < 1 / 2 then f
  else if 1 / 2 < r then f + 1
  else if f % 2 = 0 then f else f + 1

/-- Embeds `_rank_result_from_scores`: wrap the spearman output into a
`RankCorrelationResult`, converting each DataFrame row into a
`CandidateRankResult`. -/
def rank_result_from_scores
    (spearmanr : List ℚ → List ℚ → Option ℚ × Option ℚ)
    (gt : List (String × ℤ)) (gts : List (String × ℚ))
    (ms : List (String × ℚ)) : RankCorrelationResult :=
  let out := spearman_rho_with_p spearmanr gt ms
  ⟨out.rho, out.p,
    out.breakdown.map fun r =>
      (r.1, ⟨r.2.1, alookup gts r.1, roundHalfEven r.2.2.2, r.2.2.1⟩)⟩

/-! Competition ranking (`rank_from_scores`, `Pipeline/poe.py`). -/

/-- Model of `np.argsort(-s)`: the indices sorted by descending score.  numpy's
quicksort is modelled by an insertion sort; the tie order is irrelevant to
the ranks produced (proved by `claim_C8_competition_ranking`, whose
statement does not depend on the sort). -/
def argsortDesc {n : ℕ} (s : Fin n → ℚ) : List (Fin n) :=
  List.insertionSort (fun a b => s b ≤ s a) (List.finRange n)

/-- The `for idx, pos in enumerate(order, start=1)` loop of
`rank_from_scores`, carrying `(idx, last_score, last_rank, ranks)`. -/
def rfsLoop {n : ℕ} (s : Fin n → ℚ) :
    List (Fin n) → ℕ → Option ℚ → ℕ → (Fin n → ℕ) → (Fin n → ℕ)
  | [], _, _, _, ranks => ranks
  | pos :: rest, idx, last_score, last_rank, ranks =>
      match last_score with
      | none =>
          rfsLoop s rest (idx + 1) (some (s pos)) idx
            (Function.update ranks pos idx)
      | some ls =>
          if s pos < ls then
            rfsLoop s rest (idx + 1) (some (s pos)) idx
              (Function.update ranks pos idx)
          else
            rfsLoop s rest (idx + 1) (some ls) last_rank
              (Function.update ranks pos last_rank)

/-- Embeds `rank_from_scores` (`Pipeline/poe.py`): 1-is-best competition ranking
`(1, 1, 3, ...)` on descending scores. -/
def rank_from_scores {n : ℕ} (s : Fin n → ℚ) : Fin n → ℕ :=
  rfsLoop s (argsortDesc s) 1 none 0 (fun _ => 0)

/-! Artifact consistency (`Domain/artifact.py`). -/

/-- Python's default `str.strip` whitespace set. -/
def pySpace (c : Char) : Bool :=
  c = ' ' ∨ c = '\t' ∨ c = '\n' ∨ c = '\r' ∨ c = '\x0b' ∨ c = '\x0c'

/-- Model of Python `str.strip()` (strip leading/trailing whitespace). -/
def pyStrip (s : String) : String :=
  String.mk (((s.data.dropWhile pySpace).reverse.dropWhile pySpace).reverse)

/-- Model of Python `str.lower()` on the ASCII fragment (every string this
code compares is ASCII). -/
def pyLower (s : String) : String :=
  String.mk (s.data.map Char.toLower)

/-- Embeds `_is_none_reasons` (`Domain/artifact.py`): a non-empty list whose
every entry strips and lowercases to `"none"`.  (`(r or "")` only converts
a falsy value to `""`, the identity on strings.) -/
def is_none_reasons (reasons : List String) : Bool :=
  if reasons.isEmpty then false
  else reasons.all fun r => pyLower (pyStrip r) = "none"

/-- Embeds `Score` (`Domain/artifact.py`). -/
structure Score where
  score : ℚ
  explanation : String
deriving DecidableEq

/-- Embeds `CRITScore` (`Domain/artifact.py`). -/
structure CRITScore where
  validity : Score
  reliability : Score
deriving DecidableEq

/-- Embeds `_reasons_crits_consistent` (`Domain/artifact.py`): equal lengths, or
the "no reasons found" sentinel (all-`"none"` reasons with an empty score
list). -/
def reasons_crits_consistent (reasons : List String)
    (crits : List CRITScore) : Bool :=
  if reasons.length = crits.length then true
  else if is_none_reasons reasons ∧ crits.length = 0 then true
  else false

/-! Orchestration and resume (`Pipeline/make_pairs.py`, `Domain/pair.py`). -/

/-- Shape of the persisted per-pair JSON file as seen by
`Pair.load_analysis`. -/
inductive PairFile where
  | missing          -- the path does not exist
  | unreadable       -- `json.loads` / `read_text` raises
  | noAnalysisDict   -- `obj.get("analysis")` is not a dict
  | invalidAnalysis  -- `PairAnalysis.model_validate` raises
  | validAnalysis    -- a structurally valid analysis object
deriving DecidableEq

/-- Exceptions observable inside `Pair.load_analysis`. -/
inductive LoadErr where
  | jsonError
  | validationError
  | attributeError
deriving DecidableEq

/-- The attribute `analysis_complete` looked up by `Pair.load_analysis`:
the `Pair` class defines no such method (the only occurrence of
`analysis_complete` in the repository is this call site), so the lookup
yields nothing and the call raises `AttributeError`. -/
def pairAnalysisCompleteAttr : Option (Unit → Bool) := none

/-- Embeds `Pair.load_analysis` (`Domain/pair.py`) before its `try/except` is
applied: the body either returns a Bool or raises. -/
def load_analysis_attempt (f : PairFile) : Except LoadErr Bool :=
  match f with
  | .missing => .ok false
  | .unreadable => .error .jsonError
  | .noAnalysisDict => .ok false
  | .invalidAnalysis => .error .validationError
  | .validAnalysis =>
      match pairAnalysisCompleteAttr with
      | none => .error .attributeError
      | some g => .ok (g ())

/-- Embeds `Pair.load_analysis`: the surrounding `except Exception` swallows any
raised error into `False`. -/
def load_analysis (f : PairFile) : Bool :=
  match load_analysis_attempt f with
  | .ok b => b
  | .error _ => false

/-- Observable side effects of one `ensure_pairs` pair iteration. -/
inductive Ev where
  | compareCall  -- a Judge invocation (`Pair.compare`)
  | saveJson     -- `Pair.save_json`
  | analyzeRun   -- `Pair.run_analysis`
deriving DecidableEq

/-- On-disk state of one pair, with the artifact payload abstract
(type `A`): `artifacts` is the artifacts section (absent if never
computed), `analysisFile` is what `load_analysis` sees. -/
structure PairDisk (A : Type) where
  artifacts : Option A
  analysisFile : PairFile

/-- Embeds `Pair.load_artifacts` (`Domain/pair.py`): succeeds iff an artifacts
section is present, validates, and `is_complete()` holds; the predicate
`complete` abstracts `PairArtifacts.is_complete`. -/
def pair_load_artifacts {A : Type} (complete : A → Bool)
    (d : PairDisk A) : Bool :=
  match d.artifacts with
  | none => false
  | some a => complete a

/-- The 2-attempt retry loop of `ensure_pairs`: `judge k` is the result of
the `k`-th `Pair.compare` call (`none` = the attempt raised).  Each
successful attempt persists (`save_json`) and breaks. -/
def retryCompare {A : Type} (judge : Fin 2 → Option A) :
    List Ev × Option A :=
  match judge 0 with
  | some a => ([Ev.compareCall, Ev.saveJson], some a)
  | none =>
      match judge 1 with
      | some a => ([Ev.compareCall, Ev.compareCall, Ev.saveJson], some a)
      | none => ([Ev.compareCall, Ev.compareCall], none)

/-- One pair iteration of `ensure_pairs` (lines 68-97 of
`Pipeline/make_pairs.py`): load artifacts and analysis, compare (with
retry) only when artifacts are missing, then recompute and persist the
analysis unless both loads succeeded.  (`run_analysis` raises when
`artifacts is None`; the caller catches and logs, so nothing is saved.)
Returns the emitted events and the resulting on-disk state. -/
def pairRun {A : Type} (complete : A → Bool) (judge : Fin 2 → Option A)
    (d : PairDisk A) : List Ev × PairDisk A :=
  let has_artifacts := pair_load_artifacts complete d
  let has_analysis := load_analysis d.analysisFile
  let step1 : List Ev × PairDisk A :=
    if has_artifacts then ([], d)
    else
      let rc := retryCompare judge
      (rc.1, ⟨rc.2.orElse (fun _ => d.artifacts), d.analysisFile⟩)
  if !has_analysis || !has_artifacts then
    match (step1.2).artifacts with
    | some _ =>
        (step1.1 ++ [Ev.analyzeRun, Ev.saveJson],
          ⟨(step1.2).artifacts, PairFile.validAnalysis⟩)
    | none => (step1.1 ++ [Ev.analyzeRun], step1.2)
  else step1

/-- The whole pair loop of `ensure_pairs`: events in order, plus the
resulting per-pair disk states. -/
def roundRun {A : Type} (complete : A → Bool) (judge : Fin 2 → Option A)
    (pairs : List (PairDisk A)) : List Ev × List (PairDisk A) :=
  (pairs.flatMap fun d => (pairRun complete judge d).1,
   pairs.map fun d => (pairRun complete judge d).2)

/-- A pair is "available" to the greedy selector when it is in range,
off-diagonal, and not yet chosen. -/
def availablePair (n : ℕ) (chosen : List (ℕ × ℕ)) (p : ℕ × ℕ) : Prop :=
  p.1 < n ∧ p.2 < n ∧ p.1 ≠ p.2 ∧ p ∉ chosen

/-- The aggregate round analysis: `compute_round_analysis` is a pure
function of the pairs' artifacts (each pair's analysis is recomputed
deterministically from its artifacts by `build_analysis`); `agg` abstracts
that pure function. -/
def aggregateAnalysis {A β : Type} (agg : List (Option A) → β)
    (pairs : List (PairDisk A)) : β :=
  agg (pairs.map PairDisk.artifacts)

end MACA

-- ===== THEOREMS =====

namespace MACA

/-- Membership in the full directed matrix. -/
lemma mem_fullMatrixPairs {n : ℕ} {p : ℕ × ℕ} :
    p ∈ fullMatrixPairs n ↔ p.1 < n ∧ p.2 < n ∧ p.1 ≠ p.2 := by
  cases p with
  | mk i j =>
    simp only [fullMatrixPairs, List.mem_flatMap, List.mem_map, List.mem_filter,
      List.mem_range, bne_iff_ne, ne_eq]
    constructor
    · rintro ⟨a, ha, b, ⟨hb, hab⟩, h⟩
      cases h
      exact ⟨ha, hb, hab⟩
    · rintro ⟨hi, hj, hij⟩
      exact ⟨i, hi, j, ⟨hj, hij⟩, rfl⟩

lemma nodup_fullMatrixPairs (n : ℕ) : (fullMatrixPairs n).Nodup := by
  apply List.nodup_flatMap.2
  constructor
  · intro i _
    exact (((List.nodup_range n).filter _).map fun a b h => by
      simpa using congrArg Prod.snd h)
  · apply List.Pairwise.imp _ (List.nodup_range n)
    intro a b hab p hpa hpb
    simp only [List.mem_map, List.mem_filter] at hpa hpb
    obtain ⟨x, _, rfl⟩ := hpa
    obtain ⟨y, _, hy⟩ := hpb
    exact hab (congrArg Prod.fst hy).symm

lemma toFinset_fullMatrixPairs (n : ℕ) :
    (fullMatrixPairs n).toFinset = (Finset.range n).offDiag := by
  ext p
  simp [mem_fullMatrixPairs, Finset.mem_offDiag]

lemma length_fullMatrixPairs (n : ℕ) :
    (fullMatrixPairs n).length = n * (n - 1) := by
  have h := List.toFinset_card_of_nodup (nodup_fullMatrixPairs n)
  rw [toFinset_fullMatrixPairs, Finset.offDiag_card, Finset.card_range] at h
  rw [← h, Nat.mul_sub_one]

/-- C6: with `K = None` or `K ≥ n(n-1)`, `ensure_pairs` selects the full
directed matrix: exactly `n(n-1)` distinct ordered pairs, covering every
`(i, j)` with `i ≠ j` and containing no pair with `i = j`. -/
theorem claim_C6_full_matrix (n : ℕ) (K : Option ℕ) (hn : 2 ≤ n)
    (hK : K = none ∨ ∃ k, K = some k ∧ n * (n - 1) ≤ k) :
    (ensure_pairs_chosen n K).length = n * (n - 1) ∧
    (ensure_pairs_chosen n K).Nodup ∧
    (∀ i j, i < n → j < n → i ≠ j → (i, j) ∈ ensure_pairs_chosen n K) ∧
    (∀ p ∈ ensure_pairs_chosen n K, p.1 ≠ p.2) := by
  have hfull : ensure_pairs_chosen n K = fullMatrixPairs n := by
    rcases hK with rfl | ⟨k, rfl, hk⟩
    · rfl
    · simp [ensure_pairs_chosen, hk]
  rw [hfull]
  refine ⟨length_fullMatrixPairs n, nodup_fullMatrixPairs n, ?_, ?_⟩
  · intro i j hi hj hij
    exact mem_fullMatrixPairs.2 ⟨hi, hj, hij⟩
  · intro p hp
    exact (mem_fullMatrixPairs.1 hp).2.2

/-! Positive definiteness of the ridge-regularized Gram matrix.  These
lemmas show the `np.linalg.pinv` fallbacks in `selection.build_A_inv` and
`_lse_scores_from_table` are dead code in exact arithmetic, and that every
variance value examined by `next_pair_greedy` is positive. -/

lemma dotProduct_self_nonneg {m : ℕ} (v : Fin m → ℚ) :
    0 ≤ Matrix.dotProduct v v :=
  Finset.sum_nonneg fun i _ => mul_self_nonneg (v i)

lemma dotProduct_self_pos {m : ℕ} {v : Fin m → ℚ} (hv : v ≠ 0) :
    0 < Matrix.dotProduct v v := by
  obtain ⟨i, hi⟩ := Function.ne_iff.1 hv
  exact Finset.sum_pos' (fun k _ => mul_self_nonneg (v k))
    ⟨i, Finset.mem_univ i, mul_self_pos.2 hi⟩

lemma ridgeGram_qf {m n : ℕ} (X : Matrix (Fin m) (Fin n) ℚ) {r : ℚ}
    (hr : 0 < r) (y : Fin n → ℚ) :
    Matrix.dotProduct y ((ridgeGram X r).mulVec y) =
      Matrix.dotProduct (X.mulVec y) (X.mulVec y) +
        r * Matrix.dotProduct y y := by
  unfold ridgeGram
  rw [if_pos hr, Matrix.add_mulVec, Matrix.dotProduct_add,
    Matrix.smul_mulVec_assoc, Matrix.one_mulVec, Matrix.dotProduct_smul,
    smul_eq_mul, ← Matrix.mulVec_mulVec, Matrix.dotProduct_mulVec,
    Matrix.vecMul_transpose]

lemma ridgeGram_qf_pos {m n : ℕ} (X : Matrix (Fin m) (Fin n) ℚ) {r : ℚ}
    (hr : 0 < r) {y : Fin n → ℚ} (hy : y ≠ 0) :
    0 < Matrix.dotProduct y ((ridgeGram X r).mulVec y) := by
  rw [ridgeGram_qf X hr y]
  exact add_pos_of_nonneg_of_pos (dotProduct_self_nonneg _)
    (mul_pos hr (dotProduct_self_pos hy))

lemma ridgeGram_det_ne_zero {m n : ℕ} (X : Matrix (Fin m) (Fin n) ℚ)
    {r : ℚ} (hr : 0 < r) : (ridgeGram X r).det ≠ 0 := by
  intro h
  obtain ⟨v, hv0, hv⟩ := Matrix.exists_mulVec_eq_zero_iff.2 h
  have hpos := ridgeGram_qf_pos X hr hv0
  rw [hv, Matrix.dotProduct_zero] at hpos
  exact lt_irrefl 0 hpos

lemma ridgeGram_transpose {m n : ℕ} (X : Matrix (Fin m) (Fin n) ℚ) (r : ℚ) :
    (ridgeGram X r).transpose = ridgeGram X r := by
  unfold ridgeGram
  split <;>
    simp [Matrix.transpose_add, Matrix.transpose_mul, Matrix.transpose_smul,
      Matrix.transpose_one]

lemma matInv_eq_inv {n : ℕ} (A : Matrix (Fin n) (Fin n) ℚ) :
    matInv A = A⁻¹ := by
  rw [Matrix.inv_def, matInv, Ring.inverse_eq_inv']

lemma ridgeGram_inv_transpose {m n : ℕ} (X : Matrix (Fin m) (Fin n) ℚ)
    (r : ℚ) : ((ridgeGram X r)⁻¹).transpose = (ridgeGram X r)⁻¹ := by
  rw [Matrix.transpose_nonsing_inv, ridgeGram_transpose]

lemma ridgeGram_inv_qf_pos {m n : ℕ} (X : Matrix (Fin m) (Fin n) ℚ)
    {r : ℚ} (hr : 0 < r) {u : Fin n → ℚ} (hu : u ≠ 0) :
    0 < Matrix.dotProduct u ((ridgeGram X r)⁻¹.mulVec u) := by
  set A := ridgeGram X r with hA
  have hdet : A.det ≠ 0 := ridgeGram_det_ne_zero X hr
  have hunit : IsUnit A.det := isUnit_iff_ne_zero.2 hdet
  set y := A⁻¹.mulVec u with hy
  have hAy : A.mulVec y = u := by
    rw [hy, Matrix.mulVec_mulVec, Matrix.mul_nonsing_inv _ hunit,
      Matrix.one_mulVec]
  have hy0 : y ≠ 0 := by
    intro h
    exact hu (by rw [← hAy, h, Matrix.mulVec_zero])
  have := ridgeGram_qf_pos X hr hy0
  rw [← hA] at this
  calc (0 : ℚ) < Matrix.dotProduct y (A.mulVec y) := this
    _ = Matrix.dotProduct (A.mulVec y) y := Matrix.dotProduct_comm _ _
    _ = Matrix.dotProduct u y := by rw [hAy]

lemma symm_entry_qf {n : ℕ} (M : Matrix (Fin n) (Fin n) ℚ)
    (hM : M.transpose = M) {i j : Fin n} (hij : i ≠ j) :
    M i i + M j j - 2 * M i j =
      Matrix.dotProduct (Pi.single i 1 - Pi.single j 1)
        (M.mulVec (Pi.single i 1 - Pi.single j 1)) := by
  have hji : M j i = M i j := by
    conv_lhs => rw [← hM]
    rfl
  rw [Matrix.mulVec_sub, Matrix.mulVec_single, Matrix.mulVec_single,
    Matrix.sub_dotProduct, Matrix.single_dotProduct, Matrix.single_dotProduct]
  simp only [Pi.sub_apply, mul_one]
  rw [hji]
  ring

lemma single_sub_single_ne_zero {n : ℕ} {i j : Fin n} (hij : i ≠ j) :
    (Pi.single i 1 - Pi.single j 1 : Fin n → ℚ) ≠ 0 := by
  intro h
  have := congrFun h i
  simp [Pi.single_apply, hij, (Ne.symm hij)] at this

/-- Every variance value `A_inv[i,i] + A_inv[j,j] - 2*A_inv[i,j]` examined
by `next_pair_greedy` is positive (the inverse of the ridge-regularized
Gram matrix is positive definite). -/
lemma greedy_val_pos (n : ℕ) (chosen : List (ℕ × ℕ)) {i j : ℕ}
    (hi : i < n) (hj : j < n) (hij : i ≠ j) :
    0 < greedyVal (build_A_inv n chosen) (i, j) := by
  show 0 < matrixEntry (build_A_inv n chosen) i i +
      matrixEntry (build_A_inv n chosen) j j -
      2 * matrixEntry (build_A_inv n chosen) i j
  have hr : (0 : ℚ) < 1 / 1000000 := by norm_num
  have hfin : (⟨i, hi⟩ : Fin n) ≠ ⟨j, hj⟩ := by
    intro h
    exact hij (congrArg Fin.val h)
  set M := (ridgeGram (designW n chosen) (1 / 1000000))⁻¹ with hMdef
  have hMentry : build_A_inv n chosen = M := by
    rw [build_A_inv, matInv_eq_inv, hMdef]
  have hsym : M.transpose = M := ridgeGram_inv_transpose _ _
  have hq := symm_entry_qf M hsym hfin
  have hpos := ridgeGram_inv_qf_pos (designW n chosen) hr
    (single_sub_single_ne_zero hfin)
  rw [hMentry]
  unfold matrixEntry
  rw [dif_pos ⟨hi, hi⟩, dif_pos ⟨hj, hj⟩, dif_pos ⟨hi, hj⟩]
  rw [hq]
  exact hpos

lemma mem_allIndexPairs {n : ℕ} {p : ℕ × ℕ} :
    p ∈ allIndexPairs n ↔ p.1 < n ∧ p.2 < n := by
  cases p with
  | mk i j =>
    simp only [allIndexPairs, List.mem_flatMap, List.mem_map, List.mem_range]
    constructor
    · rintro ⟨a, ha, b, hb, h⟩
      cases h
      exact ⟨ha, hb⟩
    · rintro ⟨hi, hj⟩
      exact ⟨i, hi, j, hj, rfl⟩

lemma foldl_greedyStep_sound {n : ℕ} (chosen : List (ℕ × ℕ))
    (l : List (ℕ × ℕ)) (hl : ∀ p ∈ l, p.1 < n ∧ p.2 < n) :
    ∀ st : Option (ℕ × ℕ) × ℚ,
      (∀ q, st.1 = some q → availablePair n chosen q) →
      ∀ q, (l.foldl (greedyStep chosen (build_A_inv n chosen)) st).1 = some q →
        availablePair n chosen q := by
  induction l with
  | nil => intro st hst q hq; exact hst q hq
  | cons p l ih =>
    intro st hst q hq
    refine ih (fun r hr => hl r (List.mem_cons_of_mem _ hr)) _ ?_ q hq
    intro r hr
    unfold greedyStep at hr
    by_cases hskip : p.1 = p.2 ∨ p ∈ chosen
    · rw [if_pos hskip] at hr
      exact hst r hr
    · rw [if_neg hskip] at hr
      push_neg at hskip
      by_cases hupd : st.2 < greedyVal (build_A_inv n chosen) p
      · rw [if_pos hupd] at hr
        cases hr
        have hp := hl p (List.mem_cons_self p l)
        exact ⟨hp.1, hp.2, hskip.1, hskip.2⟩
      · rw [if_neg hupd] at hr
        exact hst r hr

lemma foldl_greedyStep_progress {n : ℕ} (chosen : List (ℕ × ℕ))
    (l : List (ℕ × ℕ)) :
    ∀ st : Option (ℕ × ℕ) × ℚ,
      (st.1 = none → st.2 = -(10 ^ 18 : ℚ)) →
      ((∃ p ∈ l, availablePair n chosen p) ∨ st.1 ≠ none) →
      (l.foldl (greedyStep chosen (build_A_inv n chosen)) st).1 ≠ none := by
  induction l with
  | nil =>
    intro st hst hex
    rcases hex with ⟨p, hp, _⟩ | h
    · exact absurd hp (List.not_mem_nil p)
    · exact h
  | cons p l ih =>
    intro st hst hex
    set A_inv := build_A_inv n chosen with hAdef
    set st' := greedyStep chosen A_inv st p with hst'
    have hkeep : st.1 ≠ none → st'.1 ≠ none := by
      intro h
      rw [hst']
      unfold greedyStep
      by_cases hskip : p.1 = p.2 ∨ p ∈ chosen
      · rw [if_pos hskip]
        exact h
      · rw [if_neg hskip]
        by_cases hupd : st.2 < greedyVal A_inv p
        · rw [if_pos hupd]
          simp
        · rw [if_neg hupd]
          exact h
    have hinv : st'.1 = none → st'.2 = -(10 ^ 18 : ℚ) := by
      rw [hst']
      unfold greedyStep
      by_cases hskip : p.1 = p.2 ∨ p ∈ chosen
      · rw [if_pos hskip]
        exact hst
      · rw [if_neg hskip]
        by_cases hupd : st.2 < greedyVal A_inv p
        · rw [if_pos hupd]
          intro h
          simp at h
        · rw [if_neg hupd]
          exact hst
    refine ih st' hinv ?_
    rcases hex with ⟨q, hq, hqa⟩ | h
    · rcases List.mem_cons.1 hq with rfl | hql
      · -- the available pair is the head: the state after processing it is some
        right
        rw [hst']
        unfold greedyStep
        rw [if_neg (by
          push_neg
          exact ⟨hqa.2.2.1, hqa.2.2.2⟩)]
        by_cases hnone : st.1 = none
        · have hval : st.2 < greedyVal A_inv q := by
            rw [hst hnone, hAdef]
            have hpos : 0 < greedyVal (build_A_inv n chosen) (q.1, q.2) :=
              greedy_val_pos n chosen hqa.1 hqa.2.1 hqa.2.2.1
            calc (-(10 ^ 18 : ℚ)) < 0 := by norm_num
              _ < _ := hpos
          rw [if_pos hval]
          simp
        · split
          · simp
          · exact hnone
      · left
        exact ⟨q, hql, hqa⟩
    · exact Or.inr (hkeep h)

lemma next_pair_greedy_some {n : ℕ} {chosen : List (ℕ × ℕ)} {q : ℕ × ℕ}
    (h : next_pair_greedy n chosen = some q) : availablePair n chosen q := by
  unfold next_pair_greedy at h
  exact foldl_greedyStep_sound chosen (allIndexPairs n)
    (fun p hp => mem_allIndexPairs.1 hp) _ (by simp) q h

lemma next_pair_greedy_isSome {n : ℕ} {chosen : List (ℕ × ℕ)}
    (hex : ∃ p, availablePair n chosen p) :
    ∃ q, next_pair_greedy n chosen = some q := by
  obtain ⟨p, hp⟩ := hex
  have h := foldl_greedyStep_progress chosen (allIndexPairs n)
    ((none : Option (ℕ × ℕ)), -(10 ^ 18 : ℚ)) (fun _ => rfl)
    (Or.inl ⟨p, mem_allIndexPairs.2 ⟨hp.1, hp.2.1⟩, hp⟩)
  unfold next_pair_greedy
  exact Option.ne_none_iff_exists'.1 h

lemma exists_availablePair {n : ℕ} {picked : List (ℕ × ℕ)}
    (hnd : picked.Nodup)
    (hval : ∀ p ∈ picked, p.1 < n ∧ p.2 < n ∧ p.1 ≠ p.2)
    (hlen : picked.length < n * (n - 1)) :
    ∃ q, availablePair n picked q := by
  by_contra h
  push_neg at h
  have hsub : (Finset.range n).offDiag ⊆ picked.toFinset := by
    intro p hp
    rw [Finset.mem_offDiag] at hp
    rw [List.mem_toFinset]
    by_contra hmem
    exact h p ⟨Finset.mem_range.1 hp.1, Finset.mem_range.1 hp.2.1, hp.2.2, hmem⟩
  have hcard := Finset.card_le_card hsub
  rw [List.toFinset_card_of_nodup hnd, Finset.offDiag_card,
    Finset.card_range] at hcard
  have hx : n * (n - 1) = n * n - n := by rw [Nat.mul_sub_one]
  omega

lemma mem_insertPair {q p : ℕ × ℕ} {l : List (ℕ × ℕ)} :
    q ∈ insertPair p l ↔ q = p ∨ q ∈ l := by
  unfold insertPair
  split
  · constructor
    · exact Or.inr
    · rintro (rfl | h)
      · assumption
      · exact h
  · simp [or_comm]

lemma nodup_insertPair {p : ℕ × ℕ} {l : List (ℕ × ℕ)} (h : l.Nodup) :
    (insertPair p l).Nodup := by
  unfold insertPair
  split
  · exact h
  · simp_all [List.nodup_append]

lemma length_insertPair_of_not_mem {p : ℕ × ℕ} {l : List (ℕ × ℕ)}
    (h : p ∉ l) : (insertPair p l).length = l.length + 1 := by
  unfold insertPair
  rw [if_neg h, List.length_append, List.length_singleton]

lemma subset_insertPair {p : ℕ × ℕ} {l : List (ℕ × ℕ)} :
    l ⊆ insertPair p l := by
  unfold insertPair
  split
  · exact fun _ => id
  · exact fun x hx => List.mem_append_left _ hx

lemma greedy_loop_spec (n K : ℕ) (hKn : K ≤ n * (n - 1)) :
    ∀ (fuel : ℕ) (picked : List (ℕ × ℕ)), picked.Nodup →
      (∀ p ∈ picked, p.1 < n ∧ p.2 < n ∧ p.1 ≠ p.2) →
      picked.length ≤ K → K ≤ picked.length + fuel →
      (greedy_loop n K fuel picked).length = K ∧
      (greedy_loop n K fuel picked).Nodup ∧
      (∀ p ∈ greedy_loop n K fuel picked, p.1 < n ∧ p.2 < n ∧ p.1 ≠ p.2) ∧
      picked ⊆ greedy_loop n K fuel picked := by
  intro fuel
  induction fuel with
  | zero =>
    intro picked hnd hval hle hfuel
    unfold greedy_loop
    exact ⟨by omega, hnd, hval, fun _ => id⟩
  | succ fuel ih =>
    intro picked hnd hval hle hfuel
    unfold greedy_loop
    by_cases hlt : picked.length < K
    · rw [if_pos hlt]
      have hex := exists_availablePair hnd hval (by omega)
      obtain ⟨q, hq⟩ := next_pair_greedy_isSome hex
      have hqa := next_pair_greedy_some hq
      rw [hq]
      have hlen := length_insertPair_of_not_mem hqa.2.2.2
      have := ih (insertPair q picked) (nodup_insertPair hnd)
        (fun p hp => by
          rcases mem_insertPair.1 hp with rfl | hp'
          · exact ⟨hqa.1, hqa.2.1, hqa.2.2.1⟩
          · exact hval p hp')
        (by omega) (by omega)
      exact ⟨this.1, this.2.1, this.2.2.1,
        List.Subset.trans subset_insertPair this.2.2.2⟩
    · rw [if_neg hlt]
      exact ⟨by omega, hnd, hval, fun _ => id⟩

lemma star_loop_spec (K : ℕ) :
    ∀ (l : List ℕ) (picked : List (ℕ × ℕ)), l.Nodup →
      (∀ i ∈ l, ((i : ℕ), (0 : ℕ)) ∉ picked) →
      star_loop K l picked =
        picked ++ (l.take (K - picked.length)).map (fun i => (i, 0)) := by
  intro l
  induction l with
  | nil => intro picked _ _; simp [star_loop]
  | cons i rest ih =>
    intro picked hnd hmem
    unfold star_loop
    by_cases hK : K ≤ picked.length
    · rw [if_pos hK, Nat.sub_eq_zero_of_le hK]
      simp
    · rw [if_neg hK]
      have hins : insertPair (i, 0) picked = picked ++ [(i, 0)] := by
        unfold insertPair
        rw [if_neg (hmem i (List.mem_cons_self i rest))]
      rw [hins, ih (picked ++ [(i, 0)])
        ((List.nodup_cons.1 hnd).2)
        (fun j hj => by
          rw [List.mem_append]
          rintro (h | h)
          · exact hmem j (List.mem_cons_of_mem _ hj) h
          · rcases List.mem_singleton.1 h with h'
            have : j = i := congrArg Prod.fst h'
            exact (List.nodup_cons.1 hnd).1 (this ▸ hj))]
      have harith : K - picked.length = (K - (picked.length + 1)) + 1 := by
        omega
      rw [List.length_append, List.length_singleton, harith,
        List.take_succ_cons, List.map_cons]
      simp

lemma star_seed_eq (n K : ℕ) :
    star_seed n K =
      ((List.range' 1 (n - 1)).take K).map (fun i => (i, 0)) := by
  unfold star_seed
  rw [star_loop_spec K _ [] (List.nodup_range' _ _)
    (fun _ _ h => (List.not_mem_nil _) h)]
  rfl

lemma star_seed_props (n K : ℕ) (hn : 2 ≤ n) :
    (star_seed n K).Nodup ∧ (star_seed n K).length = min K (n - 1) ∧
    (∀ p ∈ star_seed n K, p.1 < n ∧ p.2 < n ∧ p.1 ≠ p.2) := by
  rw [star_seed_eq n K]
  refine ⟨?_, ?_, ?_⟩
  · exact (((List.nodup_range' _ _).sublist (List.take_sublist _ _)).map
      (fun a b hab => congrArg Prod.fst hab))
  · rw [List.length_map, List.length_take, List.length_range']
  · intro p hp
    obtain ⟨i, hi, rfl⟩ := List.mem_map.1 hp
    have hi' := List.take_subset _ _ hi
    rw [List.mem_range'_1] at hi'
    exact ⟨by omega, by omega, by omega⟩

lemma star_seed_coverage (n K : ℕ) (hn : 2 ≤ n) (h : n - 1 ≤ K) :
    ∀ c < n, ∃ p ∈ star_seed n K, c = p.1 ∨ c = p.2 := by
  rw [star_seed_eq n K,
    List.take_of_length_le (by rw [List.length_range']; omega)]
  intro c hc
  by_cases hc0 : c = 0
  · refine ⟨(1, 0), List.mem_map.2 ⟨1, List.mem_range'_1.2 (by omega), rfl⟩,
      Or.inr (by omega)⟩
  · refine ⟨(c, 0), List.mem_map.2 ⟨c, List.mem_range'_1.2 (by omega), rfl⟩,
      Or.inl rfl⟩

/-- C1 (amended): for `n ≥ 2` and `0 < K < n(n-1)`, `ensure_pairs`
chooses exactly `K` distinct directed pairs and never revisits an
already-chosen pair (the greedy step only ever returns a not-yet-chosen
pair); the star seed is contained in the chosen set, and — provided
`K ≥ n-1`, so the star loop is not cut short by the budget — the
star-seed phase alone covers every candidate index.  (For `K < n-1` the
star loop stops after `K` pairs and coverage fails — see the
counterexample.) -/
theorem claim_C1_budgeted_selection (n K : ℕ) (hn : 2 ≤ n)
    (hK1 : 0 < K) (hK2 : K < n * (n - 1)) :
    (ensure_pairs_chosen n (some K)).length = K ∧
    (ensure_pairs_chosen n (some K)).Nodup ∧
    star_seed n K ⊆ ensure_pairs_chosen n (some K) ∧
    (∀ (chosen : List (ℕ × ℕ)) (q : ℕ × ℕ),
      next_pair_greedy n chosen = some q → q ∉ chosen) ∧
    (n - 1 ≤ K → ∀ c < n, ∃ p ∈ star_seed n K, c = p.1 ∨ c = p.2) := by
  have hprops := star_seed_props n K hn
  have heq : ensure_pairs_chosen n (some K) = greedy_loop n K K (star_seed n K) := by
    show (if n * (n - 1) ≤ K then fullMatrixPairs n
      else greedy_loop n K K (star_seed n K)) = greedy_loop n K K (star_seed n K)
    rw [if_neg (by omega)]
  have hlen : (star_seed n K).length ≤ K := by
    rw [hprops.2.1]
    omega
  have hspec := greedy_loop_spec n K (by omega) K (star_seed n K)
    hprops.1 hprops.2.2 hlen (by omega)
  rw [heq]
  exact ⟨hspec.1, hspec.2.1, hspec.2.2.2,
    fun chosen q hq => (next_pair_greedy_some hq).2.2.2,
    fun h => star_seed_coverage n K hn h⟩

/-- Witness for C1 at `n = 3`, `K = 2`. -/
theorem claim_C1_budgeted_selection_witness :
    (ensure_pairs_chosen 3 (some 2)).length = 2 ∧
    (ensure_pairs_chosen 3 (some 2)).Nodup ∧
    star_seed 3 2 ⊆ ensure_pairs_chosen 3 (some 2) ∧
    (∀ (chosen : List (ℕ × ℕ)) (q : ℕ × ℕ),
      next_pair_greedy 3 chosen = some q → q ∉ chosen) ∧
    (3 - 1 ≤ 2 → ∀ c < 3, ∃ p ∈ star_seed 3 2, c = p.1 ∨ c = p.2) :=
  claim_C1_budgeted_selection 3 2 (by decide) (by decide) (by decide)

/-- Counterexample to C1 as stated: at `n = 3`, `K = 1` (which satisfies
`0 < K < n(n-1)`), the star-seed loop stops after a single pair `(1, 0)`,
so candidate index 2 appears in no chosen pair. -/
theorem claim_C1_counterexample :
    (0 < 1 ∧ 1 < 3 * (3 - 1)) ∧
    ensure_pairs_chosen 3 (some 1) = [(1, 0)] ∧
    ¬ (∃ p ∈ ensure_pairs_chosen 3 (some 1), (2 : ℕ) = p.1 ∨ (2 : ℕ) = p.2) := by
  refine ⟨by decide, by decide, by decide⟩

/-! Translation invariance (C3) and the sum aggregator (C5). -/

lemma tableComps_shiftTable {N : ℕ} (pexp : ℚ → ℚ) (c : ℚ)
    (table : MatchTable N) :
    tableComps pexp (shiftTable c table) = tableComps pexp table := by
  unfold tableComps
  apply List.flatMap_congr
  intro i _
  apply List.filterMap_congr
  intro j _
  by_cases hij : i = j
  · rw [if_pos hij, if_pos hij]
  · rw [if_neg hij, if_neg hij]
    cases h : table i j with
    | none => simp [shiftTable, h]
    | some cell =>
        simp only [shiftTable, h, Option.map_some]
        show some (i, j, 1 / (1 + pexp (cell.scoreB + c - (cell.scoreA + c)))) =
          some (i, j, 1 / (1 + pexp (cell.scoreB - cell.scoreA)))
        have : cell.scoreB + c - (cell.scoreA + c) = cell.scoreB - cell.scoreA := by
          ring
        rw [this]

lemma tableObs_shiftTable {N : ℕ} (c : ℚ) (table : MatchTable N)
    (hgap : ∀ i j cell, table i j = some cell →
      cell.gap = cell.scoreA - cell.scoreB) :
    tableObs (shiftTable c table) = tableObs table := by
  unfold tableObs
  apply List.flatMap_congr
  intro i _
  apply List.filterMap_congr
  intro j _
  by_cases hij : i = j
  · rw [if_pos hij, if_pos hij]
  · rw [if_neg hij, if_neg hij]
    cases h : table i j with
    | none => simp [shiftTable, h]
    | some cell =>
        simp only [shiftTable, h, Option.map_some]
        show some (i, j, cell.scoreA + c - (cell.scoreB + c)) =
          some (i, j, cell.gap)
        have : cell.scoreA + c - (cell.scoreB + c) = cell.gap := by
          rw [hgap i j cell h]
          ring
        rw [this]

/-- C3: adding a constant `c` to both `scoreA` and `scoreB` of every
filled cell leaves the LSE score differences (in fact the whole LSE score
vector) and the whole PoE-Gaussian result unchanged: both estimators
consume the cells only through the translation-invariant quantities
`gap = scoreA - scoreB` and `scoreB - scoreA`.  The hypothesis is the
MatchTable invariant that the stored `gap` field is `scoreA - scoreB`,
which holds for every table the pipeline builds. -/
theorem claim_C3_translation_invariance {N : ℕ} (table : MatchTable N)
    (c : ℚ) (pexp : ℚ → ℚ)
    (hgap : ∀ i j cell, table i j = some cell →
      cell.gap = cell.scoreA - cell.scoreB) :
    (∀ i j : Fin N,
      lse_scores_from_table (shiftTable c table) i -
          lse_scores_from_table (shiftTable c table) j =
        lse_scores_from_table table i - lse_scores_from_table table j) ∧
    poe_scores_from_table pexp (shiftTable c table) =
      poe_scores_from_table pexp table := by
  constructor
  · intro i j
    unfold lse_scores_from_table
    rw [tableObs_shiftTable c table hgap]
  · unfold poe_scores_from_table poe_gaussian_scores
    rw [tableComps_shiftTable pexp c table]

/-- Witness for C3 on the concrete table `disconnectedTable` with
`c = 5`. -/
theorem claim_C3_translation_invariance_witness :
    (∀ i j : Fin 3,
      lse_scores_from_table (shiftTable 5 disconnectedTable) i -
          lse_scores_from_table (shiftTable 5 disconnectedTable) j =
        lse_scores_from_table disconnectedTable i -
          lse_scores_from_table disconnectedTable j) ∧
    poe_scores_from_table (fun _ => 1) (shiftTable 5 disconnectedTable) =
      poe_scores_from_table (fun _ => 1) disconnectedTable :=
  claim_C3_translation_invariance disconnectedTable 5 (fun _ => 1)
    (fun i j cell h => by
      unfold disconnectedTable at h
      split at h
      · cases h
        show (0 : ℚ) = 1 - 1
        simp
      · cases h)

lemma foldl_positionStep_fst {N : ℕ} (table : MatchTable N) (x : Fin N) :
    ∀ (l : List (Fin N × Fin N)) (st : (Fin N → ℚ) × (Fin N → ℚ)),
      (l.foldl (positionStep table) st).1 x =
        st.1 x + (l.map fun p =>
          if p.1 ≠ p.2 ∧ p.1 = x then cellGap (table p.1 p.2) else 0).sum := by
  intro l
  induction l with
  | nil => intro st; simp
  | cons p l ih =>
    intro st
    rw [List.foldl_cons, ih, List.map_cons, List.sum_cons]
    have hstep : (positionStep table st p).1 x =
        st.1 x + (if p.1 ≠ p.2 ∧ p.1 = x then cellGap (table p.1 p.2) else 0) := by
      unfold positionStep
      by_cases hd : p.1 = p.2
      · rw [if_pos hd]
        simp [hd]
      · rw [if_neg hd]
        cases h : table p.1 p.2 with
        | none => simp [cellGap, h]
        | some cell =>
            simp only [cellGap, h, ne_eq, hd, not_false_eq_true, true_and]
            rw [Function.update_apply]
            by_cases hx : p.1 = x
            · rw [if_pos hx.symm, if_pos hx, hx]
            · rw [if_neg (Ne.symm hx), if_neg hx, add_zero]
    rw [hstep]
    ring

lemma foldl_positionStep_snd {N : ℕ} (table : MatchTable N) (x : Fin N) :
    ∀ (l : List (Fin N × Fin N)) (st : (Fin N → ℚ) × (Fin N → ℚ)),
      (l.foldl (positionStep table) st).2 x =
        st.2 x + (l.map fun p =>
          if p.1 ≠ p.2 ∧ p.2 = x then -cellGap (table p.1 p.2) else 0).sum := by
  intro l
  induction l with
  | nil => intro st; simp
  | cons p l ih =>
    intro st
    rw [List.foldl_cons, ih, List.map_cons, List.sum_cons]
    have hstep : (positionStep table st p).2 x =
        st.2 x + (if p.1 ≠ p.2 ∧ p.2 = x then -cellGap (table p.1 p.2) else 0) := by
      unfold positionStep
      by_cases hd : p.1 = p.2
      · rw [if_pos hd]
        simp [hd]
      · rw [if_neg hd]
        cases h : table p.1 p.2 with
        | none => simp [cellGap, h]
        | some cell =>
            simp only [cellGap, h, ne_eq, hd, not_false_eq_true, true_and]
            rw [Function.update_apply]
            by_cases hx : p.2 = x
            · rw [if_pos hx.symm, if_pos hx, hx, sub_eq_add_neg]
            · rw [if_neg (Ne.symm hx), if_neg hx, add_zero]
    rw [hstep]
    ring

lemma sum_map_tableIndexPairs {N : ℕ} (f : Fin N × Fin N → ℚ) :
    ((tableIndexPairs N).map f).sum = ∑ i : Fin N, ∑ j : Fin N, f (i, j) := by
  unfold tableIndexPairs
  rw [List.map_flatMap, List.flatMap, List.sum_flatten, List.map_map]
  rw [Fin.sum_univ_def]
  congr 1
  apply List.map_congr_left
  intro i _
  show ((List.map (fun j => (i, j)) (List.finRange N)).map f).sum =
    ∑ j : Fin N, f (i, j)
  rw [List.map_map, Fin.sum_univ_def]
  rfl

/-- C5: `position_sums_from_table` (SumAggregator) computes, for each
candidate, the sum of the gaps of the filled cells where it is the row
(first member) minus the sum of the gaps of the filled cells where it is
the column (second member); a candidate appearing in no filled cell gets
score 0.  (Diagonal cells are `None` in every pipeline-built table.) -/
theorem claim_C5_sum_aggregator {N : ℕ} (table : MatchTable N)
    (hdiag : ∀ i, table i i = none) :
    (∀ x : Fin N,
      position_sums_from_table table x =
        (∑ j : Fin N, cellGap (table x j)) -
          (∑ i : Fin N, cellGap (table i x))) ∧
    (∀ x : Fin N, (∀ j, table x j = none) → (∀ i, table i x = none) →
      position_sums_from_table table x = 0) := by
  have hmain : ∀ x : Fin N,
      position_sums_from_table table x =
        (∑ j : Fin N, cellGap (table x j)) -
          (∑ i : Fin N, cellGap (table i x)) := by
    intro x
    unfold position_sums_from_table
    rw [foldl_positionStep_fst table x, foldl_positionStep_snd table x,
      sum_map_tableIndexPairs, sum_map_tableIndexPairs]
    have hA : (∑ i : Fin N, ∑ j : Fin N,
        (if i ≠ j ∧ i = x then cellGap (table i j) else 0)) =
        ∑ j : Fin N, cellGap (table x j) := by
      have hstep : ∀ i : Fin N, (∑ j : Fin N,
          (if i ≠ j ∧ i = x then cellGap (table i j) else 0)) =
          if i = x then ∑ j : Fin N, cellGap (table i j) else 0 := by
        intro i
        by_cases hix : i = x
        · rw [if_pos hix]
          apply Finset.sum_congr rfl
          intro j _
          by_cases hij : i = j
          · rw [if_neg (by simp [hij]), ← hij, hdiag i]
            rfl
          · rw [if_pos ⟨hij, hix⟩]
        · rw [if_neg hix]
          apply Finset.sum_eq_zero
          intro j _
          rw [if_neg (by intro h; exact hix h.2)]
      rw [Finset.sum_congr rfl (fun i _ => hstep i)]
      rw [Finset.sum_ite_eq' Finset.univ x
        (fun i => ∑ j : Fin N, cellGap (table i j))]
      rw [if_pos (Finset.mem_univ x)]
    have hB : (∑ i : Fin N, ∑ j : Fin N,
        (if i ≠ j ∧ j = x then -cellGap (table i j) else 0)) =
        -∑ i : Fin N, cellGap (table i x) := by
      rw [← Finset.sum_neg_distrib]
      apply Finset.sum_congr rfl
      intro i _
      have hstep : (∑ j : Fin N,
          (if i ≠ j ∧ j = x then -cellGap (table i j) else 0)) =
          ∑ j : Fin N, (if j = x then
            (if i ≠ j then -cellGap (table i j) else 0) else 0) := by
        apply Finset.sum_congr rfl
        intro j _
        by_cases hjx : j = x
        · by_cases hij : i = j
          · rw [if_neg (by simp [hij]), if_pos hjx, if_neg (by simp [hij])]
          · rw [if_pos ⟨hij, hjx⟩, if_pos hjx, if_pos hij]
        · rw [if_neg (by intro h; exact hjx h.2), if_neg hjx]
      rw [hstep, Finset.sum_ite_eq' Finset.univ x
        (fun j => if i ≠ j then -cellGap (table i j) else 0)]
      rw [if_pos (Finset.mem_univ x)]
      by_cases hix : i = x
      · rw [if_neg (by simp [hix]), ← hix, hdiag i]
        rfl
      · rw [if_pos hix]
    rw [hA, hB]
    ring
  refine ⟨hmain, ?_⟩
  intro x hrow hcol
  rw [hmain x]
  have h1 : (∑ j : Fin N, cellGap (table x j)) = 0 :=
    Finset.sum_eq_zero fun j _ => by rw [hrow j]; rfl
  have h2 : (∑ i : Fin N, cellGap (table i x)) = 0 :=
    Finset.sum_eq_zero fun i _ => by rw [hcol i]; rfl
  rw [h1, h2, sub_zero]

/-- Witness for C5 on the concrete table `disconnectedTable` (whose
diagonal is empty) at `x = 0`. -/
theorem claim_C5_sum_aggregator_witness :
    (∀ x : Fin 3,
      position_sums_from_table disconnectedTable x =
        (∑ j : Fin 3, cellGap (disconnectedTable x j)) -
          (∑ i : Fin 3, cellGap (disconnectedTable i x))) ∧
    (∀ x : Fin 3, (∀ j, disconnectedTable x j = none) →
      (∀ i, disconnectedTable i x = none) →
      position_sums_from_table disconnectedTable x = 0) :=
  claim_C5_sum_aggregator disconnectedTable (fun i => by
    unfold disconnectedTable
    rw [if_neg]
    intro h
    have h1 := h.1
    have h2 := h.2
    rw [h1] at h2
    exact absurd h2 (by decide))

/-! C2: singularity handling of the three aggregators. -/

/-- C2 (amended): the Sum aggregator and the LSE tolerate every table —
LSE's ridge-regularized matrix is provably nonsingular, so its
`np.linalg.inv` call succeeds and the `pinv` fallback is never needed —
but the PoE-Gaussian estimator performs an exact `np.linalg.solve` with no
fallback, and raises `LinAlgError` (modelled as `none`) precisely when its
anchored Gram matrix is singular, which happens for comparison graphs
disconnected from the anchor. -/
theorem claim_C2_singularity_handling {N : ℕ} (table : MatchTable N) :
    (ridgeGram (anchoredX N (tableObs table)) (1 / 1000000000)).det ≠ 0 ∧
    (∀ pexp : ℚ → ℚ,
      poe_scores_from_table pexp table = none ↔
        ((tableComps pexp table).isEmpty = false ∧
          (poeA N (tableComps pexp table)).det = 0)) := by
  constructor
  · exact ridgeGram_det_ne_zero _ (by norm_num)
  · intro pexp
    unfold poe_scores_from_table poe_gaussian_scores
    by_cases hemp : (tableComps pexp table).isEmpty
    · rw [if_pos hemp]
      simp [hemp]
    · rw [if_neg hemp, if_neg hemp]
      by_cases hdet : (poeA N (tableComps pexp table)).det = 0
      · rw [if_pos hdet]
        simp [hdet, Bool.eq_false_iff.2 hemp]
      · rw [if_neg hdet]
        simp [hdet]

/-- Counterexample to C2 as stated: on `disconnectedTable` (candidates
`{1, 2}` compared, candidate 0 isolated) the PoE-Gaussian estimator's
design matrix is singular and `np.linalg.solve` raises — the estimator
does not return a score vector.  (`fun _ => 1` instantiates the
transcendental `math.exp`; the singularity is independent of it.) -/
theorem claim_C2_counterexample :
    poe_scores_from_table (fun _ => 1) disconnectedTable = none ∧
    (poeA 3 (tableComps (fun _ => 1) disconnectedTable)).det = 0 := by
  have hcomps : tableComps (fun _ => 1) disconnectedTable =
      [((1 : Fin 3), (2 : Fin 3), 1 / (1 + 1))] := by rfl
  have hdet : (poeA 3 [((1 : Fin 3), (2 : Fin 3), 1 / (1 + 1))]).det = 0 := by
    apply Matrix.exists_mulVec_eq_zero_iff.1
    refine ⟨![0, 1, 1], ?_, ?_⟩
    · intro h
      have h1 := congrFun h 1
      exact one_ne_zero h1
    · unfold poeA
      rw [← Matrix.mulVec_mulVec]
      have hW : (anchoredX 3 [((1 : Fin 3), (2 : Fin 3), 1 / (1 + 1))]).mulVec
          ![0, 1, 1] = 0 := by
        funext k
        fin_cases k <;>
          · simp [anchoredX, Matrix.mulVec, Matrix.dotProduct,
              Fin.sum_univ_three, Matrix.of_apply]
      rw [hW, Matrix.mulVec_zero]
  constructor
  · unfold poe_scores_from_table
    rw [hcomps]
    show poe_gaussian_scores 3 [((1 : Fin 3), (2 : Fin 3), 1 / (1 + 1))] = none
    unfold poe_gaussian_scores
    rw [if_neg (by decide), if_pos hdet]
  · rw [hcomps]
    exact hdet

/-! C4: rank evaluation with insufficient ground truth. -/

/-- C4: with fewer than 3 common candidates, the rank evaluator returns
NaN correlation (`none`), NaN p-value, and an empty per-candidate
breakdown — no error is raised (the function returns normally, for every
behaviour of the external scipy routine). -/
theorem claim_C4_insufficient_ground_truth
    (spearmanr : List ℚ → List ℚ → Option ℚ × Option ℚ)
    (gt : List (String × ℤ)) (gts : List (String × ℚ))
    (ms : List (String × ℚ))
    (h : (commonNames gt ms).length < 3) :
    spearman_rho_with_p spearmanr gt ms = ⟨none, none, []⟩ ∧
    rank_result_from_scores spearmanr gt gts ms = ⟨none, none, []⟩ := by
  have h1 : spearman_rho_with_p spearmanr gt ms = ⟨none, none, []⟩ := by
    unfold spearman_rho_with_p
    rw [if_pos h]
  refine ⟨h1, ?_⟩
  show RankCorrelationResult.mk
    (spearman_rho_with_p spearmanr gt ms).rho
    (spearman_rho_with_p spearmanr gt ms).p
    ((spearman_rho_with_p spearmanr gt ms).breakdown.map fun r =>
      (r.1, ⟨r.2.1, alookup gts r.1, roundHalfEven r.2.2.2, r.2.2.1⟩)) =
    ⟨none, none, []⟩
  rw [h1]
  rfl

/-- Witness for C4: ground truth `{a: 1}` and an empty inferred-score map
share no candidate. -/
theorem claim_C4_insufficient_ground_truth_witness :
    (commonNames [("a", (1 : ℤ))] []).length < 3 ∧
    (spearman_rho_with_p (fun _ _ => (none, none)) [("a", 1)] [] =
        ⟨none, none, []⟩ ∧
      rank_result_from_scores (fun _ _ => (none, none)) [("a", 1)] [] [] =
        ⟨none, none, []⟩) :=
  ⟨by decide,
    claim_C4_insufficient_ground_truth (fun _ _ => (none, none))
      [("a", 1)] [] [] (by decide)⟩

/-! C9: the reasons/CRIT-scores consistency check. -/

lemma is_none_reasons_iff (reasons : List String) :
    is_none_reasons reasons = true ↔
      (reasons ≠ [] ∧ ∀ r ∈ reasons, pyLower (pyStrip r) = "none") := by
  unfold is_none_reasons
  by_cases he : reasons.isEmpty
  · rw [if_pos he]
    rw [List.isEmpty_iff] at he
    simp [he]
  · rw [if_neg he]
    rw [List.isEmpty_iff] at he
    rw [List.all_eq_true]
    simp [he]

/-- C9 (amended): the consistency check accepts exactly when the lengths
are equal, or the reasons list is non-empty with every entry
case-insensitively stripping to `"none"` and the CRIT-score list is empty.
(The sentinel is not restricted to the exact list `["None"]` — see the
counterexample.) -/
theorem claim_C9_consistency_amended (reasons : List String)
    (crits : List CRITScore) :
    reasons_crits_consistent reasons crits = true ↔
      (reasons.length = crits.length ∨
        (reasons ≠ [] ∧ (∀ r ∈ reasons, pyLower (pyStrip r) = "none") ∧
          crits = [])) := by
  unfold reasons_crits_consistent
  by_cases hlen : reasons.length = crits.length
  · rw [if_pos hlen]
    simp [hlen]
  · rw [if_neg hlen]
    by_cases hs : is_none_reasons reasons ∧ crits.length = 0
    · rw [if_pos hs]
      have h1 := (is_none_reasons_iff reasons).1 hs.1
      have h2 : crits = [] := List.length_eq_zero.1 hs.2
      simp only [true_iff]
      exact Or.inr ⟨h1.1, h1.2, h2⟩
    · rw [if_neg hs]
      constructor
      · intro habs
        exact absurd habs Bool.false_ne_true
      · rintro (h | ⟨hne, hall, hnil⟩)
        · exact absurd h hlen
        · exact absurd ⟨(is_none_reasons_iff reasons).2 ⟨hne, hall⟩,
            by rw [hnil]; rfl⟩ hs

/-- Counterexample to C9 as stated: the lowercase singleton `["none"]`
with an empty score list is accepted by the check, although its length
differs from the score list's and it is not the exact list `["None"]`. -/
theorem claim_C9_counterexample :
    reasons_crits_consistent ["none"] [] = true ∧
    (["none"] : List String).length ≠ ([] : List CRITScore).length ∧
    (["none"] : List String) ≠ ["None"] := by
  refine ⟨by decide, by decide, by decide⟩

/-! C10: `Pair.load_analysis` can never return `True`. -/

lemma load_analysis_false (f : PairFile) : load_analysis f = false := by
  cases f <;> rfl

/-- C10: `Pair.load_analysis` returns `False` on every on-disk pair file;
on the structurally-valid-analysis path it is because the lookup of the
undefined attribute `analysis_complete` raises `AttributeError`, which the
bare `except` swallows into `False`.  A resumed round therefore always
recomputes every pair's analysis. -/
theorem claim_C10_load_analysis_always_false :
    (∀ f : PairFile, load_analysis f = false) ∧
    load_analysis_attempt PairFile.validAnalysis =
      Except.error LoadErr.attributeError :=
  ⟨load_analysis_false, rfl⟩

/-! C7: round-resume idempotence. -/

lemma pairRun_of_artifacts {A : Type} (complete : A → Bool)
    (judge : Fin 2 → Option A) (d : PairDisk A)
    (h : pair_load_artifacts complete d = true) :
    Ev.compareCall ∉ (pairRun complete judge d).1 ∧
    (pairRun complete judge d).2.artifacts = d.artifacts := by
  unfold pairRun
  rw [h, load_analysis_false d.analysisFile]
  simp only [if_true, Bool.not_false, Bool.not_true, Bool.false_or,
    if_false]
  cases hart : d.artifacts with
  | some a => simp [hart]
  | none => simp [hart]

/-- C7: when every pair's artifacts load as complete and consistent,
re-invoking the orchestrator performs zero Judge invocations
(`Pair.compare` is never called), leaves every pair's artifacts unchanged,
and therefore reproduces the identical aggregate analysis (the aggregate
is a deterministic function `agg` of the artifacts). -/
theorem claim_C7_resume_idempotence {A β : Type} (complete : A → Bool)
    (judge : Fin 2 → Option A) (agg : List (Option A) → β)
    (pairs : List (PairDisk A))
    (h : ∀ d ∈ pairs, pair_load_artifacts complete d = true) :
    Ev.compareCall ∉ (roundRun complete judge pairs).1 ∧
    ((roundRun complete judge pairs).2.map PairDisk.artifacts =
      pairs.map PairDisk.artifacts) ∧
    aggregateAnalysis agg ((roundRun complete judge pairs).2) =
      aggregateAnalysis agg pairs := by
  have hmap : (roundRun complete judge pairs).2.map PairDisk.artifacts =
      pairs.map PairDisk.artifacts := by
    unfold roundRun
    rw [List.map_map]
    apply List.map_congr_left
    intro d hd
    exact (pairRun_of_artifacts complete judge d (h d hd)).2
  refine ⟨?_, hmap, ?_⟩
  · intro hmem
    unfold roundRun at hmem
    rw [List.mem_flatMap] at hmem
    obtain ⟨d, hd, hev⟩ := hmem
    exact (pairRun_of_artifacts complete judge d (h d hd)).1 hev
  · unfold aggregateAnalysis
    rw [hmap]

/-- Witness for C7: one pair with complete artifacts (`A = Unit`) and a
failing Judge (which must not be consulted). -/
theorem claim_C7_resume_idempotence_witness :
    Ev.compareCall ∉ (roundRun (fun _ : Unit => true) (fun _ => none)
      [⟨some (), PairFile.missing⟩]).1 ∧
    ((roundRun (fun _ : Unit => true) (fun _ => none)
        [⟨some (), PairFile.missing⟩]).2.map PairDisk.artifacts =
      [PairDisk.mk (some ()) PairFile.missing].map PairDisk.artifacts) ∧
    aggregateAnalysis (fun l => l) ((roundRun (fun _ : Unit => true)
        (fun _ => none) [⟨some (), PairFile.missing⟩]).2) =
      aggregateAnalysis (fun l => l) [⟨some (), PairFile.missing⟩] :=
  claim_C7_resume_idempotence (fun _ => true) (fun _ => none) (fun l => l)
    [⟨some (), PairFile.missing⟩]
    (fun d hd => by
      rw [List.mem_singleton] at hd
      rw [hd]
      rfl)

/-! C8: `rank_from_scores` computes the competition ranking. -/

lemma rfsLoop_spec {n : ℕ} (s : Fin n → ℚ) :
    ∀ (rest done : List (Fin n)) (ranks : Fin n → ℕ) (ls : Option ℚ)
      (lr : ℕ),
      (done ++ rest).Perm (List.finRange n) →
      (done ++ rest).Pairwise (fun a b => s b ≤ s a) →
      (match ls with
       | none => done = []
       | some v => (∀ d ∈ done, v ≤ s d) ∧ (∀ r ∈ rest, s r ≤ v) ∧
           lr = 1 + (Finset.univ.filter fun q => v < s q).card) →
      (∀ d ∈ done,
        ranks d = 1 + (Finset.univ.filter fun q => s d < s q).card) →
      ∀ q ∈ done ++ rest,
        rfsLoop s rest (done.length + 1) ls lr ranks q =
          1 + (Finset.univ.filter fun q' => s q < s q').card := by
  intro rest
  induction rest with
  | nil =>
    intro done ranks ls lr _ _ _ hranks q hq
    rw [List.append_nil] at hq
    exact hranks q hq
  | cons pos rest ih =>
    intro done ranks ls lr hperm hsort hls hranks q hq
    have hnd : (done ++ pos :: rest).Nodup :=
      hperm.nodup_iff.2 (List.nodup_finRange n)
    have hnd_done : done.Nodup := (List.nodup_append.1 hnd).1
    have hpos_not_done : pos ∉ done := by
      intro hmem
      exact (List.disjoint_of_nodup_append hnd) hmem
        (List.mem_cons_self pos rest)
    have hmem_all : ∀ x : Fin n, x ∈ done ++ pos :: rest :=
      fun x => hperm.symm.subset (List.mem_finRange x)
    have hpos_rest : ∀ r ∈ rest, s r ≤ s pos := by
      have hp := (List.pairwise_append.1 hsort).2.1
      exact fun r hr => (List.pairwise_cons.1 hp).1 r hr
    have hdone_pos : ∀ d ∈ done, s pos ≤ s d := by
      have hp := (List.pairwise_append.1 hsort).2.2
      exact fun d hd => hp d hd pos (List.mem_cons_self _ _)
    have hsplit : done ++ pos :: rest = (done ++ [pos]) ++ rest := by
      simp
    -- when every already-processed element scores strictly above `pos`,
    -- the processed set is exactly the set of strictly greater scores
    have hkey : (∀ d ∈ done, s pos < s d) →
        (Finset.univ.filter fun q' => s pos < s q').card = done.length := by
      intro hstrict
      have hset : (Finset.univ.filter fun q' => s pos < s q') =
          done.toFinset := by
        ext x
        simp only [Finset.mem_filter, Finset.mem_univ, true_and,
          List.mem_toFinset]
        constructor
        · intro hx
          rcases List.mem_append.1 (hmem_all x) with hxd | hxr
          · exact hxd
          · rcases List.mem_cons.1 hxr with rfl | hxr'
            · exact absurd hx (lt_irrefl _)
            · exact absurd hx (not_lt.2 (hpos_rest x hxr'))
        · intro hx
          exact hstrict x hx
      rw [hset, List.toFinset_card_of_nodup hnd_done]
    -- invariants for the recursive call with `done' = done ++ [pos]`
    have hperm' : ((done ++ [pos]) ++ rest).Perm (List.finRange n) := by
      rw [← hsplit]; exact hperm
    have hsort' : ((done ++ [pos]) ++ rest).Pairwise
        (fun a b => s b ≤ s a) := by
      rw [← hsplit]; exact hsort
    have hlen' : (done ++ [pos]).length + 1 = done.length + 1 + 1 := by
      simp
    have hq' : q ∈ (done ++ [pos]) ++ rest := by rw [← hsplit]; exact hq
    cases ls with
    | none =>
      have hdone_nil : done = [] := hls
      subst hdone_nil
      have hzero : (Finset.univ.filter fun q' => s pos < s q').card = 0 :=
        hkey (fun d hd => absurd hd (List.not_mem_nil d))
      show rfsLoop s rest (List.length [] + 1 + 1) (some (s pos))
          (List.length [] + 1)
          (Function.update ranks pos (List.length [] + 1)) q =
        1 + (Finset.univ.filter fun q' => s q < s q').card
      rw [← hlen']
      refine ih ([] ++ [pos]) _ (some (s pos)) _ hperm' hsort' ?_ ?_ q hq'
      · refine ⟨?_, ?_, ?_⟩
        · intro d hd
          rcases List.mem_singleton.1 hd with rfl
          exact le_refl _
        · exact hpos_rest
        · rw [hzero]
          simp
      · intro d hd
        rcases List.mem_singleton.1 hd with rfl
        rw [Function.update_same, hzero]
        simp
    | some v =>
      obtain ⟨hvdone, hvrest, hlr⟩ := hls
      have hposv : s pos ≤ v := hvrest pos (List.mem_cons_self _ _)
      simp only [rfsLoop]
      by_cases hlt : s pos < v
      · rw [if_pos hlt]
        have hstrict : ∀ d ∈ done, s pos < s d :=
          fun d hd => lt_of_lt_of_le hlt (hvdone d hd)
        have hcard := hkey hstrict
        rw [← hlen']
        refine ih (done ++ [pos]) _ (some (s pos)) _ hperm' hsort' ?_ ?_ q hq'
        · refine ⟨?_, ?_, ?_⟩
          · intro d hd
            rcases List.mem_append.1 hd with hd' | hd'
            · exact le_of_lt (hstrict d hd')
            · rcases List.mem_singleton.1 hd' with rfl
              exact le_refl _
          · exact hpos_rest
          · rw [hcard]
            omega
        · intro d hd
          rcases List.mem_append.1 hd with hd' | hd'
          · rw [Function.update_noteq (by
              intro h
              exact hpos_not_done (h ▸ hd'))]
            exact hranks d hd'
          · rcases List.mem_singleton.1 hd' with rfl
            rw [Function.update_same, hcard]
            omega
      · rw [if_neg hlt]
        have hveq : s pos = v := le_antisymm hposv (not_lt.1 hlt)
        rw [← hlen']
        refine ih (done ++ [pos]) _ (some v) _ hperm' hsort' ?_ ?_ q hq'
        · refine ⟨?_, ?_, hlr⟩
          · intro d hd
            rcases List.mem_append.1 hd with hd' | hd'
            · exact hvdone d hd'
            · rcases List.mem_singleton.1 hd' with rfl
              exact le_of_eq hveq.symm
          · intro r hr
            exact le_trans (hpos_rest r hr) (le_of_eq hveq)
        · intro d hd
          rcases List.mem_append.1 hd with hd' | hd'
          · rw [Function.update_noteq (by
              intro h
              exact hpos_not_done (h ▸ hd'))]
            exact hranks d hd'
          · rcases List.mem_singleton.1 hd' with rfl
            rw [Function.update_same, hlr, hveq]

/-- C8: `rank_from_scores` assigns every index the competition rank
`1 + #(indices with strictly greater score)` under descending order, so
tied values share the lower rank number and the next distinct value skips
accordingly (1, 1, 3, ...). -/
theorem claim_C8_competition_ranking {n : ℕ} (s : Fin n → ℚ)
    (pos : Fin n) :
    rank_from_scores s pos =
      1 + (Finset.univ.filter fun q => s pos < s q).card := by
  unfold rank_from_scores
  haveI : IsTotal (Fin n) (fun a b => s b ≤ s a) :=
    ⟨fun a b => le_total (s b) (s a)⟩
  haveI : IsTrans (Fin n) (fun a b => s b ≤ s a) :=
    ⟨fun a b c hab hbc => le_trans hbc hab⟩
  have hperm : ([] ++ argsortDesc s).Perm (List.finRange n) := by
    simpa using List.perm_insertionSort _ _
  have hsort : ([] ++ argsortDesc s).Pairwise (fun a b => s b ≤ s a) := by
    simp only [List.nil_append]
    exact List.sorted_insertionSort _ _
  have hmem : pos ∈ [] ++ argsortDesc s := by
    simp only [List.nil_append]
    exact (List.perm_insertionSort (fun a b => s b ≤ s a)
      (List.finRange n)).symm.subset (List.mem_finRange pos)
  exact rfsLoop_spec s (argsortDesc s) [] (fun _ => 0) none 0 hperm hsort
    rfl (fun d hd => absurd hd (List.not_mem_nil d)) pos hmem

/-- Witness for C6 at `n = 2`, `K = None`. -/
theorem claim_C6_full_matrix_witness :
    (ensure_pairs_chosen 2 none).length = 2 * (2 - 1) ∧
    (ensure_pairs_chosen 2 none).Nodup ∧
    (∀ i j, i < 2 → j < 2 → i ≠ j → (i, j) ∈ ensure_pairs_chosen 2 none) ∧
    (∀ p ∈ ensure_pairs_chosen 2 none, p.1 ≠ p.2) :=
  claim_C6_full_matrix 2 none (by decide) (Or.inl rfl)

end MACA
